import Mathlib

/-!
# Verification of the modified SAR engine (`calculate_modified_sar` in `app.py`)

This file embeds the core recurrence of the repository — the modified
Parabolic Stop-And-Reverse indicator — as executable Lean definitions over
rational numbers, and proves/refutes the specification's claims about it.

The Python function keeps four parallel arrays `sar`, `trend`, `af`, `ep`;
here one `SarState` record per index carries all four, and the run is a
left scan of a step function over the bar list.  The Python function
returns only the `sar` and `trend` arrays; `sarOutput` projects them out.
-/

namespace SarX

/-- One price bar: the `High`, `Low`, `Close` columns read from the dataframe. -/
structure Bar where
  high : ℚ
  low : ℚ
  close : ℚ
  deriving DecidableEq

/-- The trend regime; the Python code encodes `Up` as `1` and `Down` as `-1`. -/
inductive Trend where
  | Up : Trend
  | Down : Trend
  deriving DecidableEq

/-- The state carried from bar `i` to bar `i+1`: the entries `sar[i]`,
`trend[i]`, `af[i]`, `ep[i]` of the four arrays of the Python code. -/
structure SarState where
  sar : ℚ
  trend : Trend
  af : ℚ
  ep : ℚ
  deriving DecidableEq

/-- The provisional stop `current_sar = prev_sar + prev_af * (prev_ep - prev_sar)` (line 43). -/
def candidate (s : SarState) : ℚ :=
  s.sar + s.af * (s.ep - s.sar)

/-- The touch/reversal branching of the loop body (lines 45–70): decides the
new trend, the emitted stop and the provisional `af`/`ep` before the
extreme/acceleration update. -/
def stepRaw (af_start : ℚ) (s : SarState) (b : Bar) : SarState :=
  if s.trend = Trend.Up then
    if b.low ≤ candidate s then
      if b.close > candidate s then
        { sar := candidate s, trend := Trend.Up, af := af_start, ep := s.ep }
      else
        { sar := s.ep, trend := Trend.Down, af := af_start, ep := b.low }
    else
      { sar := candidate s, trend := Trend.Up, af := s.af, ep := s.ep }
  else
    if b.high ≥ candidate s then
      if b.close < candidate s then
        { sar := candidate s, trend := Trend.Down, af := af_start, ep := s.ep }
      else
        { sar := s.ep, trend := Trend.Up, af := af_start, ep := b.high }
    else
      { sar := candidate s, trend := Trend.Down, af := s.af, ep := s.ep }

/-- The extreme/acceleration update (lines 72–80), applied after `stepRaw`
using the possibly-updated trend and extreme. -/
def epUpdate (af_start af_limit : ℚ) (s : SarState) (b : Bar) : SarState :=
  if s.trend = Trend.Up then
    if b.high > s.ep then
      { s with ep := b.high, af := min af_limit (s.af + af_start) }
    else s
  else
    if b.low < s.ep then
      { s with ep := b.low, af := min af_limit (s.af + af_start) }
    else s

/-- One iteration of the loop at lines 36–85. -/
def step (af_start af_limit : ℚ) (s : SarState) (b : Bar) : SarState :=
  epUpdate af_start af_limit (stepRaw af_start s b) b

/-- The value `close[min(1, size-1)]` for a non-empty series split as `b0 :: rest`. -/
def initClose1 (b0 : Bar) (rest : List Bar) : ℚ :=
  match rest with
  | [] => b0.close
  | b1 :: _ => b1.close

/-- The initial state (lines 31–34): `trend[0] = 1 if close[min(1,size-1)] >
close[0] else -1`, `sar[0] = low[0]` or `high[0]`, `ep[0] = high[0]` or
`low[0]`, `af[0] = af_start`. -/
def initState (af_start : ℚ) (b0 : Bar) (rest : List Bar) : SarState :=
  if initClose1 b0 rest > b0.close then
    { sar := b0.low, trend := Trend.Up, af := af_start, ep := b0.high }
  else
    { sar := b0.high, trend := Trend.Down, af := af_start, ep := b0.low }

/-- The list of states at indices `0, 1, …`: the initial state followed by
the states produced by iterating `step` over the remaining bars. -/
def runSar (af_start af_limit : ℚ) (s : SarState) : List Bar → List SarState
  | [] => [s]
  | b :: rest => s :: runSar af_start af_limit (step af_start af_limit s b) rest

/-- The whole computation (lines 19–87).  The Python function performs no
parameter validation; on an empty dataframe the read `close[min(1, -1)]`
(= `close[-1]` of an empty array) raises an `IndexError`, modelled as
`none`.  Every non-empty input yields `some` states. -/
def calculate_modified_sar (bars : List Bar) (af_start af_limit : ℚ) :
    Option (List SarState) :=
  match bars with
  | [] => none
  | b0 :: rest => some (runSar af_start af_limit (initState af_start b0 rest) rest)

/-- The pair of arrays `(sar, trend)` actually returned at line 87. -/
def sarOutput (states : List SarState) : List (ℚ × Trend) :=
  states.map fun s => (s.sar, s.trend)

/-! ## Basic structural lemmas about the scan -/

theorem runSar_length (a l : ℚ) (s : SarState) (rest : List Bar) :
    (runSar a l s rest).length = rest.length + 1 := by
  induction rest generalizing s with
  | nil => simp [runSar]
  | cons b rest ih => simp [runSar, ih]

theorem runSar_head (a l : ℚ) (s : SarState) (rest : List Bar) :
    (runSar a l s rest)[0]? = some s := by
  cases rest <;> simp [runSar]

/-- Adjacent states of the scan are related by `step`: if positions `i` and
`i+1` of the state list and position `i` of the remaining-bar list are all
defined, the later state is `step` of the earlier one on that bar. -/
theorem runSar_adjacent (a l : ℚ) :
    ∀ (rest : List Bar) (s : SarState) (i : ℕ) (sPrev sCur : SarState) (b : Bar),
      (runSar a l s rest)[i]? = some sPrev →
      (runSar a l s rest)[i+1]? = some sCur →
      rest[i]? = some b →
      sCur = step a l sPrev b := by
  intro rest
  induction rest with
  | nil =>
    intro s i sPrev sCur b h1 h2 h3
    simp at h3
  | cons b0 rest ih =>
    intro s i sPrev sCur b h1 h2 h3
    cases i with
    | zero =>
      rw [runSar] at h1 h2
      simp at h1 h3
      rw [List.getElem?_cons_succ, runSar_head] at h2
      simp at h2
      rw [← h1, ← h2, ← h3]
    | succ j =>
      rw [runSar] at h1 h2
      rw [List.getElem?_cons_succ] at h1 h2 h3
      exact ih (step a l s b0) j sPrev sCur b h1 h2 h3

/-- Any invariant `P` on states that `step` preserves (assuming a property
`Q` of the bar consumed) holds at every state of the scan once it holds at
the start and `Q` holds on every bar. -/
theorem runSar_invariant (a l : ℚ) (P : SarState → Prop) (Q : Bar → Prop)
    (hstep : ∀ s b, P s → Q b → P (step a l s b)) :
    ∀ (rest : List Bar) (s : SarState), P s → (∀ b ∈ rest, Q b) →
      ∀ s₁ ∈ runSar a l s rest, P s₁ := by
  intro rest
  induction rest with
  | nil =>
    intro s hP hQ s₁ hs₁
    simp [runSar] at hs₁
    exact hs₁ ▸ hP
  | cons b rest ih =>
    intro s hP hQ s₁ hs₁
    rw [runSar] at hs₁
    rcases List.mem_cons.mp hs₁ with h | h
    · exact h ▸ hP
    · exact ih (step a l s b) (hstep s b hP (hQ b (by simp)))
        (fun b₁ hb₁ => hQ b₁ (by simp [hb₁])) s₁ h

/-- A successful run comes from a non-empty bar list and is the scan of
`step` from the initial state. -/
theorem sar_run_shape (bars : List Bar) (a l : ℚ) (states : List SarState)
    (hrun : calculate_modified_sar bars a l = some states) :
    ∃ b0 rest, bars = b0 :: rest ∧ states = runSar a l (initState a b0 rest) rest := by
  cases bars with
  | nil => simp [calculate_modified_sar] at hrun
  | cons b0 rest =>
    refine ⟨b0, rest, rfl, ?_⟩
    simp [calculate_modified_sar] at hrun
    exact hrun.symm

theorem initState_af (a : ℚ) (b0 : Bar) (rest : List Bar) :
    (initState a b0 rest).af = a := by
  unfold initState
  split_ifs <;> rfl

/-- The extreme/acceleration update never changes the trend. -/
theorem epUpdate_trend (a l : ℚ) (s : SarState) (b : Bar) :
    (epUpdate a l s b).trend = s.trend := by
  unfold epUpdate
  split_ifs <;> rfl

/-- The extreme/acceleration update never changes the stop. -/
theorem epUpdate_sar (a l : ℚ) (s : SarState) (b : Bar) :
    (epUpdate a l s b).sar = s.sar := by
  unfold epUpdate
  split_ifs <;> rfl

/-! ## The acceleration-factor bounds invariant -/

theorem stepRaw_af_bounds (a l : ℚ) (hal : a ≤ l) (s : SarState) (b : Bar)
    (h1 : a ≤ s.af) (h2 : s.af ≤ l) :
    a ≤ (stepRaw a s b).af ∧ (stepRaw a s b).af ≤ l := by
  unfold stepRaw
  split_ifs <;> exact ⟨by simp [*], by simp [*]⟩

theorem epUpdate_af_bounds (a l : ℚ) (ha : 0 < a) (hal : a ≤ l) (s : SarState) (b : Bar)
    (h1 : a ≤ s.af) (h2 : s.af ≤ l) :
    a ≤ (epUpdate a l s b).af ∧ (epUpdate a l s b).af ≤ l := by
  unfold epUpdate
  split_ifs
  · exact ⟨le_min hal (by linarith), min_le_left _ _⟩
  · exact ⟨h1, h2⟩
  · exact ⟨le_min hal (by linarith), min_le_left _ _⟩
  · exact ⟨h1, h2⟩

theorem step_af_bounds (a l : ℚ) (ha : 0 < a) (hal : a ≤ l) (s : SarState) (b : Bar)
    (h : a ≤ s.af ∧ s.af ≤ l) :
    a ≤ (step a l s b).af ∧ (step a l s b).af ≤ l := by
  have hr := stepRaw_af_bounds a l hal s b h.1 h.2
  exact epUpdate_af_bounds a l ha hal (stepRaw a s b) b hr.1 hr.2

/-- Every state of a successful run keeps its acceleration factor inside
`[af_start, af_limit]`, provided `0 < af_start ≤ af_limit`. -/
theorem af_bounds_of_run (bars : List Bar) (a l : ℚ) (states : List SarState)
    (hrun : calculate_modified_sar bars a l = some states) (ha : 0 < a) (hal : a ≤ l) :
    ∀ s ∈ states, a ≤ s.af ∧ s.af ≤ l := by
  obtain ⟨b0, rest, hb, hs⟩ := sar_run_shape bars a l states hrun
  subst hs
  refine runSar_invariant a l (fun s => a ≤ s.af ∧ s.af ≤ l) (fun _ => True)
    (fun s b hP _ => step_af_bounds a l ha hal s b hP) rest _ ?_ (fun _ _ => trivial)
  show a ≤ (initState a b0 rest).af ∧ (initState a b0 rest).af ≤ l
  rw [initState_af]
  exact ⟨le_refl a, hal⟩

/-! ## Behaviour of one step in the three regimes of the branch -/

/-- Up regime, intraday touch, close holds above the candidate stop:
trend and stop keep the candidate, `af` is reset and then possibly bumped
once by the extreme update. -/
theorem step_touch_up (a l : ℚ) (s : SarState) (b : Bar)
    (ht : s.trend = Trend.Up) (h1 : b.low ≤ candidate s) (h2 : b.close > candidate s) :
    (step a l s b).trend = Trend.Up ∧ (step a l s b).sar = candidate s ∧
      (step a l s b).af = if b.high > s.ep then min l (a + a) else a := by
  unfold step stepRaw
  rw [if_pos ht, if_pos h1, if_pos h2]
  unfold epUpdate
  split_ifs <;> simp_all

/-- Down regime, intraday touch, close holds below the candidate stop. -/
theorem step_touch_down (a l : ℚ) (s : SarState) (b : Bar)
    (ht : s.trend = Trend.Down) (h1 : b.high ≥ candidate s) (h2 : b.close < candidate s) :
    (step a l s b).trend = Trend.Down ∧ (step a l s b).sar = candidate s ∧
      (step a l s b).af = if b.low < s.ep then min l (a + a) else a := by
  unfold step stepRaw
  rw [if_neg (by rw [ht]; exact fun hf => Trend.noConfusion hf), if_pos h1, if_pos h2]
  unfold epUpdate
  split_ifs <;> simp_all

/-- Up regime, close-confirmed breach: full reversal, and the extreme
update right after it is a no-op. -/
theorem step_reverse_up (a l : ℚ) (s : SarState) (b : Bar)
    (ht : s.trend = Trend.Up) (h1 : b.low ≤ candidate s) (h2 : ¬b.close > candidate s) :
    step a l s b = { sar := s.ep, trend := Trend.Down, af := a, ep := b.low } := by
  unfold step stepRaw
  rw [if_pos ht, if_pos h1, if_neg h2]
  unfold epUpdate
  split_ifs <;> simp_all

/-- Down regime, close-confirmed breach: full reversal. -/
theorem step_reverse_down (a l : ℚ) (s : SarState) (b : Bar)
    (ht : s.trend = Trend.Down) (h1 : b.high ≥ candidate s) (h2 : ¬b.close < candidate s) :
    step a l s b = { sar := s.ep, trend := Trend.Up, af := a, ep := b.high } := by
  unfold step stepRaw
  rw [if_neg (by rw [ht]; exact fun hf => Trend.noConfusion hf), if_pos h1, if_neg h2]
  unfold epUpdate
  split_ifs <;> simp_all

/-- The extreme/acceleration update never decreases the acceleration
factor, as long as it is still within the cap. -/
theorem epUpdate_af_mono (a l : ℚ) (ha : 0 < a) (s : SarState) (b : Bar)
    (hafl : s.af ≤ l) : s.af ≤ (epUpdate a l s b).af := by
  unfold epUpdate
  split_ifs
  · exact le_min hafl (by linarith)
  · exact le_refl _
  · exact le_min hafl (by linarith)
  · exact le_refl _

/-- A bar that does not touch the candidate stop leaves the touch/reversal
branch untaken: `stepRaw` keeps the trend, extreme and acceleration and
moves the stop to the candidate. -/
theorem stepRaw_no_touch (a : ℚ) (s : SarState) (b : Bar)
    (hU : s.trend = Trend.Up → candidate s < b.low)
    (hD : s.trend = Trend.Down → b.high < candidate s) :
    stepRaw a s b = { sar := candidate s, trend := s.trend, af := s.af, ep := s.ep } := by
  unfold stepRaw
  cases htr : s.trend with
  | Up => rw [if_pos rfl, if_neg (not_le.mpr (hU htr))]
  | Down =>
    rw [if_neg (fun hf => Trend.noConfusion hf), if_neg (not_le.mpr (hD htr))]

/-- In a step in which the bar does not touch the candidate stop, the trend
is kept and the acceleration factor never decreases. -/
theorem step_no_touch (a l : ℚ) (ha : 0 < a) (s : SarState) (b : Bar) (hafl : s.af ≤ l)
    (hU : s.trend = Trend.Up → candidate s < b.low)
    (hD : s.trend = Trend.Down → b.high < candidate s) :
    (step a l s b).trend = s.trend ∧ s.af ≤ (step a l s b).af := by
  unfold step
  rw [stepRaw_no_touch a s b hU hD]
  constructor
  · exact epUpdate_trend a l _ b
  · exact epUpdate_af_mono a l ha _ b hafl

/-! ## The stop/extreme ordering invariant -/

/-- The candidate stop interpolates between stop and extreme (Up regime). -/
theorem candidate_bounds_up (s : SarState) (h : s.sar ≤ s.ep) (h0 : 0 ≤ s.af)
    (h1 : s.af ≤ 1) : s.sar ≤ candidate s ∧ candidate s ≤ s.ep := by
  unfold candidate
  constructor <;> nlinarith

/-- The candidate stop interpolates between extreme and stop (Down regime). -/
theorem candidate_bounds_down (s : SarState) (h : s.ep ≤ s.sar) (h0 : 0 ≤ s.af)
    (h1 : s.af ≤ 1) : s.ep ≤ candidate s ∧ candidate s ≤ s.sar := by
  unfold candidate
  constructor <;> nlinarith

/-- The stop never overshoots the extreme: `stop ≤ extreme` in an Up regime
and `extreme ≤ stop` in a Down regime. -/
def Ordered (s : SarState) : Prop :=
  match s.trend with
  | Trend.Up => s.sar ≤ s.ep
  | Trend.Down => s.ep ≤ s.sar

theorem ordered_up {s : SarState} (h : Ordered s) (htr : s.trend = Trend.Up) :
    s.sar ≤ s.ep := by
  unfold Ordered at h
  rw [htr] at h
  exact h

theorem ordered_down {s : SarState} (h : Ordered s) (htr : s.trend = Trend.Down) :
    s.ep ≤ s.sar := by
  unfold Ordered at h
  rw [htr] at h
  exact h

theorem initState_ordered (a : ℚ) (b0 : Bar) (rest : List Bar) (hb : b0.low ≤ b0.high) :
    Ordered (initState a b0 rest) := by
  unfold initState
  split_ifs
  · exact hb
  · exact hb

theorem stepRaw_ordered (a : ℚ) (s : SarState) (b : Bar)
    (h0 : 0 ≤ s.af) (h1 : s.af ≤ 1) (hord : Ordered s) :
    Ordered (stepRaw a s b) := by
  unfold stepRaw
  cases htr : s.trend with
  | Up =>
    have hcb := candidate_bounds_up s (ordered_up hord htr) h0 h1
    rw [if_pos rfl]
    split_ifs with hTouch hClose
    · exact hcb.2
    · exact le_trans hTouch hcb.2
    · exact hcb.2
  | Down =>
    have hcb := candidate_bounds_down s (ordered_down hord htr) h0 h1
    rw [if_neg (fun hf => Trend.noConfusion hf)]
    split_ifs with hTouch hClose
    · exact hcb.1
    · exact le_trans hcb.1 hTouch
    · exact hcb.1

theorem epUpdate_ordered (a l : ℚ) (s : SarState) (b : Bar) (hord : Ordered s) :
    Ordered (epUpdate a l s b) := by
  unfold epUpdate
  cases htr : s.trend with
  | Up =>
    have h := ordered_up hord htr
    rw [if_pos rfl]
    split_ifs with hep
    · show s.sar ≤ b.high
      linarith
    · exact hord
  | Down =>
    have h := ordered_down hord htr
    rw [if_neg (fun hf => Trend.noConfusion hf)]
    split_ifs with hep
    · show b.low ≤ s.sar
      linarith
    · exact hord

theorem step_ordered (a l : ℚ) (ha : 0 < a) (hl1 : l ≤ 1) (s : SarState) (b : Bar)
    (haf : a ≤ s.af ∧ s.af ≤ l) (hord : Ordered s) : Ordered (step a l s b) :=
  epUpdate_ordered a l _ b
    (stepRaw_ordered a s b (by linarith [haf.1]) (by linarith [haf.2]) hord)

/-- Every state of a successful run on well-formed bars is ordered,
provided `0 < af_start ≤ af_limit ≤ 1`. -/
theorem ordered_of_run (bars : List Bar) (a l : ℚ) (states : List SarState)
    (hrun : calculate_modified_sar bars a l = some states)
    (hbars : ∀ b ∈ bars, b.low ≤ b.high)
    (ha : 0 < a) (hal : a ≤ l) (hl1 : l ≤ 1) :
    ∀ s ∈ states, Ordered s := by
  obtain ⟨b0, rest, hb, hs⟩ := sar_run_shape bars a l states hrun
  subst hs
  have hmain := runSar_invariant a l
    (fun s => (a ≤ s.af ∧ s.af ≤ l) ∧ Ordered s) (fun b => b.low ≤ b.high)
    (fun s b hP hQ => ⟨step_af_bounds a l ha hal s b hP.1,
      step_ordered a l ha hl1 s b hP.1 hP.2⟩) rest (initState a b0 rest)
    ⟨by
      show a ≤ (initState a b0 rest).af ∧ (initState a b0 rest).af ≤ l
      rw [initState_af]
      exact ⟨le_refl a, hal⟩,
      initState_ordered a b0 rest (hbars b0 (by rw [hb]; exact List.mem_cons_self b0 rest))⟩
    (fun b₁ hb₁ => hbars b₁ (by rw [hb]; exact List.mem_cons_of_mem b0 hb₁))
  exact fun s hs => (hmain s hs).2

/-- Adjacent output states of a successful run are related by `step` on the
bar consumed at the later index. -/
theorem run_adjacent_of_calc (bars : List Bar) (a l : ℚ) (states : List SarState)
    (hrun : calculate_modified_sar bars a l = some states)
    (i : ℕ) (sPrev sCur : SarState) (b : Bar)
    (hPrev : states[i]? = some sPrev) (hCur : states[i+1]? = some sCur)
    (hb : bars[i+1]? = some b) :
    sCur = step a l sPrev b := by
  obtain ⟨b0, rest, hbars, hs⟩ := sar_run_shape bars a l states hrun
  subst hs
  subst hbars
  rw [List.getElem?_cons_succ] at hb
  exact runSar_adjacent a l rest _ i sPrev sCur b hPrev hCur hb

/-- A successful run yields exactly one state per input bar. -/
theorem calc_length (bars : List Bar) (a l : ℚ) (states : List SarState)
    (hrun : calculate_modified_sar bars a l = some states) :
    states.length = bars.length := by
  obtain ⟨b0, rest, hbars, hs⟩ := sar_run_shape bars a l states hrun
  subst hs
  subst hbars
  simp [runSar_length]

/-! ## The claims -/

/-- Claim C3: on bars `[(H=10,L=9,C=9.5), (H=11,L=9.5,C=10.5), (H=9,L=8,C=8.2)]`
with `af_start = 0.02` and `af_limit = 0.2` the engine emits
`trend[0]=Up, stop[0]=9` (extreme 10, accel 0.02);
`trend[1]=Up, stop[1]=9.02` with carried extreme 11 and accel 0.04;
`trend[2]=Down, stop[2]=11` with carried accel 0.02 and extreme 8. -/
theorem concrete_scenario :
    calculate_modified_sar [⟨10, 9, 19/2⟩, ⟨11, 19/2, 21/2⟩, ⟨9, 8, 41/5⟩] (1/50) (1/5) =
      some [⟨9, Trend.Up, 1/50, 10⟩, ⟨451/50, Trend.Up, 1/25, 11⟩,
        ⟨11, Trend.Down, 1/50, 8⟩] := by
  norm_num [calculate_modified_sar, runSar, initState, initClose1, step, stepRaw, epUpdate,
    candidate, min_def]
  decide

/-- Claim C4 (amended): the engine performs no parameter validation.  A run
fails exactly on an empty bar sequence (the read of `close[-1]` on an empty
array), independently of `af_start` and `af_limit`; in particular calls
with `af_start ≤ 0` or `af_limit < af_start` produce a full result instead
of an `InvalidParameter` error. -/
theorem no_parameter_validation (bars : List Bar) (a l : ℚ) :
    calculate_modified_sar bars a l = none ↔ bars = [] := by
  cases bars <;> simp [calculate_modified_sar]

/-- Claim C4 counterexample: a call with `af_start = -1 ≤ 0` and
`af_limit = -2 < af_start` succeeds and produces a (full-length) result,
refuting the claim that such calls fail with an `InvalidParameter` error
before any recurrence step. -/
theorem invalid_parameters_accepted :
    (-1 : ℚ) ≤ 0 ∧ (-2 : ℚ) < (-1 : ℚ) ∧
      (calculate_modified_sar [⟨10, 9, 19/2⟩] (-1) (-2)).isSome = true := by
  refine ⟨by norm_num, by norm_num, ?_⟩
  rfl

/-- Claim C5 (amended): a single-bar input returns without error a one-element
output — but with `trend[0] = Down` and `stop[0] = high[0]`, because the
initial-trend test compares `close[0]` with itself (`close[min(1, size-1)]`
with `size = 1`) and the strict `>` fails, selecting the Down branch. -/
theorem single_bar (b : Bar) (a l : ℚ) :
    calculate_modified_sar [b] a l = some [⟨b.high, Trend.Down, a, b.low⟩] := by
  simp [calculate_modified_sar, runSar, initState, initClose1, lt_irrefl]

/-- Claim C5 counterexample: on the single bar `(H=10,L=9,C=9.5)` the emitted
trend is `Down`, not `Up`, and the emitted stop is `high[0] = 10`, not
`low[0] = 9`. -/
theorem single_bar_trend_is_down :
    calculate_modified_sar [⟨10, 9, 19/2⟩] (1/50) (1/5) =
        some [⟨10, Trend.Down, 1/50, 9⟩] ∧
      Trend.Down ≠ Trend.Up ∧ (10 : ℚ) ≠ 9 := by
  refine ⟨?_, by decide, by norm_num⟩
  simp [calculate_modified_sar, runSar, initState, initClose1, lt_irrefl]

/-- Claim C9: the output sequence of `(stop, trend)` pairs of a successful run
has exactly the length of the input bar sequence. -/
theorem length_preservation (bars : List Bar) (a l : ℚ) (states : List SarState)
    (hrun : calculate_modified_sar bars a l = some states) :
    (sarOutput states).length = bars.length := by
  have h := calc_length bars a l states hrun
  simp [sarOutput, h]

/-- Claim C9 witness: the length contract evaluated on a concrete 3-bar run. -/
theorem length_preservation_witness :
    (sarOutput [⟨9, Trend.Up, 1/50, 10⟩, ⟨451/50, Trend.Up, 1/25, 11⟩,
      ⟨11, Trend.Down, 1/50, 8⟩]).length =
      ([⟨10, 9, 19/2⟩, ⟨11, 19/2, 21/2⟩, ⟨9, 8, 41/5⟩] : List Bar).length :=
  length_preservation [⟨10, 9, 19/2⟩, ⟨11, 19/2, 21/2⟩, ⟨9, 8, 41/5⟩] (1/50) (1/5)
    [⟨9, Trend.Up, 1/50, 10⟩, ⟨451/50, Trend.Up, 1/25, 11⟩, ⟨11, Trend.Down, 1/50, 8⟩]
    (by norm_num [calculate_modified_sar, runSar, initState, initClose1, step, stepRaw,
      epUpdate, candidate, min_def]; decide)

/-- Claim C6: with parameters `0 < af_start ≤ af_limit`, the acceleration
factor carried at every index of a successful run lies in
`[af_start, af_limit]`. -/
theorem accel_bounds (bars : List Bar) (a l : ℚ) (states : List SarState)
    (hrun : calculate_modified_sar bars a l = some states)
    (ha : 0 < a) (hal : a ≤ l) :
    ∀ s ∈ states, a ≤ s.af ∧ s.af ≤ l :=
  af_bounds_of_run bars a l states hrun ha hal

/-- Claim C6 witness: the bounds evaluated on a concrete one-bar run. -/
theorem accel_bounds_witness :
    (1/50 : ℚ) ≤ (⟨10, Trend.Down, 1/50, 9⟩ : SarState).af ∧
      (⟨10, Trend.Down, 1/50, 9⟩ : SarState).af ≤ 1/5 :=
  accel_bounds [⟨10, 9, 19/2⟩] (1/50) (1/5) [⟨10, Trend.Down, 1/50, 9⟩]
    (by simp [calculate_modified_sar, runSar, initState, initClose1, lt_irrefl])
    (by norm_num) (by norm_num) ⟨10, Trend.Down, 1/50, 9⟩ (by simp)

/-- Claim C10: if every bar satisfies `high ≥ low` and
`0 < af_start ≤ af_limit ≤ 1`, then at every index the carried state
satisfies `stop ≤ extreme` in an Up regime and `extreme ≤ stop` in a Down
regime. -/
theorem stop_extreme_ordering (bars : List Bar) (a l : ℚ) (states : List SarState)
    (hrun : calculate_modified_sar bars a l = some states)
    (hbars : ∀ b ∈ bars, b.low ≤ b.high)
    (ha : 0 < a) (hal : a ≤ l) (hl1 : l ≤ 1) :
    ∀ s ∈ states, (s.trend = Trend.Up → s.sar ≤ s.ep) ∧
      (s.trend = Trend.Down → s.ep ≤ s.sar) := by
  intro s hs
  have hord := ordered_of_run bars a l states hrun hbars ha hal hl1 s hs
  exact ⟨fun ht => ordered_up hord ht, fun ht => ordered_down hord ht⟩

/-- Claim C10 witness: the ordering invariant evaluated at index 0 of the
concrete 3-bar run. -/
theorem stop_extreme_ordering_witness :
    ((⟨9, Trend.Up, 1/50, 10⟩ : SarState).trend = Trend.Up →
      (⟨9, Trend.Up, 1/50, 10⟩ : SarState).sar ≤ (⟨9, Trend.Up, 1/50, 10⟩ : SarState).ep) ∧
    ((⟨9, Trend.Up, 1/50, 10⟩ : SarState).trend = Trend.Down →
      (⟨9, Trend.Up, 1/50, 10⟩ : SarState).ep ≤ (⟨9, Trend.Up, 1/50, 10⟩ : SarState).sar) :=
  stop_extreme_ordering [⟨10, 9, 19/2⟩, ⟨11, 19/2, 21/2⟩, ⟨9, 8, 41/5⟩] (1/50) (1/5)
    [⟨9, Trend.Up, 1/50, 10⟩, ⟨451/50, Trend.Up, 1/25, 11⟩, ⟨11, Trend.Down, 1/50, 8⟩]
    (by norm_num [calculate_modified_sar, runSar, initState, initClose1, step, stepRaw,
      epUpdate, candidate, min_def]; decide)
    (by
      intro b hb
      simp at hb
      rcases hb with rfl | rfl | rfl <;> norm_num)
    (by norm_num) (by norm_num) (by norm_num)
    ⟨9, Trend.Up, 1/50, 10⟩ (by simp)

/-- Claim C2: a close-confirmed breach reverses the engine: in an Up regime, a
bar with `low ≤ candidate` and `close ≤ candidate` emits trend `Down`, stop
`prev_extreme`, accel `af_start` and carried extreme `low`; symmetrically a
Down regime reverses to Up with carried extreme `high`. -/
theorem close_confirmed_reversal (bars : List Bar) (a l : ℚ) (states : List SarState)
    (hrun : calculate_modified_sar bars a l = some states)
    (i : ℕ) (sPrev sCur : SarState) (b : Bar)
    (hPrev : states[i]? = some sPrev) (hCur : states[i+1]? = some sCur)
    (hb : bars[i+1]? = some b) :
    (sPrev.trend = Trend.Up → b.low ≤ candidate sPrev → b.close ≤ candidate sPrev →
      sCur.trend = Trend.Down ∧ sCur.sar = sPrev.ep ∧ sCur.af = a ∧ sCur.ep = b.low) ∧
    (sPrev.trend = Trend.Down → b.high ≥ candidate sPrev → b.close ≥ candidate sPrev →
      sCur.trend = Trend.Up ∧ sCur.sar = sPrev.ep ∧ sCur.af = a ∧ sCur.ep = b.high) := by
  have hstep := run_adjacent_of_calc bars a l states hrun i sPrev sCur b hPrev hCur hb
  subst hstep
  constructor
  · intro ht h1 h2
    rw [step_reverse_up a l sPrev b ht h1 (not_lt.mpr h2)]
    exact ⟨rfl, rfl, rfl, rfl⟩
  · intro ht h1 h2
    rw [step_reverse_down a l sPrev b ht h1 (not_lt.mpr h2)]
    exact ⟨rfl, rfl, rfl, rfl⟩

/-- Claim C2 witness: the reversal at index 2 of the concrete 3-bar scenario. -/
theorem close_confirmed_reversal_witness :
    (⟨11, Trend.Down, 1/50, 8⟩ : SarState).trend = Trend.Down ∧
      (⟨11, Trend.Down, 1/50, 8⟩ : SarState).sar =
        (⟨451/50, Trend.Up, 1/25, 11⟩ : SarState).ep ∧
      (⟨11, Trend.Down, 1/50, 8⟩ : SarState).af = 1/50 ∧
      (⟨11, Trend.Down, 1/50, 8⟩ : SarState).ep = (⟨9, 8, 41/5⟩ : Bar).low :=
  (close_confirmed_reversal [⟨10, 9, 19/2⟩, ⟨11, 19/2, 21/2⟩, ⟨9, 8, 41/5⟩] (1/50) (1/5)
      [⟨9, Trend.Up, 1/50, 10⟩, ⟨451/50, Trend.Up, 1/25, 11⟩, ⟨11, Trend.Down, 1/50, 8⟩]
      (by norm_num [calculate_modified_sar, runSar, initState, initClose1, step, stepRaw,
        epUpdate, candidate, min_def]; decide)
      1 ⟨451/50, Trend.Up, 1/25, 11⟩ ⟨11, Trend.Down, 1/50, 8⟩ ⟨9, 8, 41/5⟩
      rfl rfl rfl).1 rfl
    (by norm_num [candidate]) (by norm_num [candidate])

/-- Claim C1 (amended): in an Up regime, a bar with `low ≤ candidate` whose
close holds above the candidate keeps trend Up and emits the candidate as
stop; the touch branch resets the carried accel to `af_start`, and the
extreme/acceleration update then bumps it once — the carried accel at the
index is `af_start` when the bar makes no new high, and
`min af_limit (af_start + af_start)` when it does.  Symmetric for Down. -/
theorem touch_without_confirm (bars : List Bar) (a l : ℚ) (states : List SarState)
    (hrun : calculate_modified_sar bars a l = some states)
    (i : ℕ) (sPrev sCur : SarState) (b : Bar)
    (hPrev : states[i]? = some sPrev) (hCur : states[i+1]? = some sCur)
    (hb : bars[i+1]? = some b) :
    (sPrev.trend = Trend.Up → b.low ≤ candidate sPrev → b.close > candidate sPrev →
      sCur.trend = Trend.Up ∧ sCur.sar = candidate sPrev ∧
        sCur.af = if b.high > sPrev.ep then min l (a + a) else a) ∧
    (sPrev.trend = Trend.Down → b.high ≥ candidate sPrev → b.close < candidate sPrev →
      sCur.trend = Trend.Down ∧ sCur.sar = candidate sPrev ∧
        sCur.af = if b.low < sPrev.ep then min l (a + a) else a) := by
  have hstep := run_adjacent_of_calc bars a l states hrun i sPrev sCur b hPrev hCur hb
  subst hstep
  exact ⟨fun ht h1 h2 => step_touch_up a l sPrev b ht h1 h2,
    fun ht h1 h2 => step_touch_down a l sPrev b ht h1 h2⟩

/-- Claim C1 counterexample: with `af_start = 0.02`, on bars
`[(10,9,9.5), (11,9,10)]` bar 1 touches the candidate stop `9.02` (low 9)
and closes above it (close 10), yet the carried accel at index 1 is
`0.04 ≠ af_start`, because the same bar makes a new high and the
extreme/acceleration update increments the freshly reset accel. -/
theorem accel_not_reset_on_touch :
    calculate_modified_sar [⟨10, 9, 19/2⟩, ⟨11, 9, 10⟩] (1/50) (1/5) =
        some [⟨9, Trend.Up, 1/50, 10⟩, ⟨451/50, Trend.Up, 1/25, 11⟩] ∧
      (⟨9, Trend.Up, 1/50, 10⟩ : SarState).trend = Trend.Up ∧
      (⟨11, 9, 10⟩ : Bar).low ≤ candidate ⟨9, Trend.Up, 1/50, 10⟩ ∧
      (⟨11, 9, 10⟩ : Bar).close > candidate ⟨9, Trend.Up, 1/50, 10⟩ ∧
      (⟨451/50, Trend.Up, 1/25, 11⟩ : SarState).af ≠ 1/50 := by
  refine ⟨?_, rfl, ?_, ?_, ?_⟩
  · norm_num [calculate_modified_sar, runSar, initState, initClose1, step, stepRaw,
      epUpdate, candidate, min_def]
  · norm_num [candidate]
  · norm_num [candidate]
  · norm_num

/-- Claim C1 witness: the amended touch-without-confirm conclusion evaluated
at index 1 of the two-bar counterexample run. -/
theorem touch_without_confirm_witness :
    (⟨451/50, Trend.Up, 1/25, 11⟩ : SarState).trend = Trend.Up ∧
      (⟨451/50, Trend.Up, 1/25, 11⟩ : SarState).sar = candidate ⟨9, Trend.Up, 1/50, 10⟩ ∧
      (⟨451/50, Trend.Up, 1/25, 11⟩ : SarState).af =
        if (⟨11, 9, 10⟩ : Bar).high > (⟨9, Trend.Up, 1/50, 10⟩ : SarState).ep
          then min (1/5 : ℚ) (1/50 + 1/50) else 1/50 :=
  (touch_without_confirm [⟨10, 9, 19/2⟩, ⟨11, 9, 10⟩] (1/50) (1/5)
      [⟨9, Trend.Up, 1/50, 10⟩, ⟨451/50, Trend.Up, 1/25, 11⟩]
      (by norm_num [calculate_modified_sar, runSar, initState, initClose1, step, stepRaw,
        epUpdate, candidate, min_def])
      0 ⟨9, Trend.Up, 1/50, 10⟩ ⟨451/50, Trend.Up, 1/25, 11⟩ ⟨11, 9, 10⟩
      rfl rfl rfl).1 rfl
    (by norm_num [candidate]) (by norm_num [candidate])

/-- Claim C8: a bar whose low (Up regime) or high (Down regime) lands exactly
on the candidate stop is treated as a touch: the touch branch runs and,
decided by the close, either the accel is reset (then possibly bumped once
by the extreme update) with the trend kept, or the engine reverses. -/
theorem inclusive_touch_tie_break (bars : List Bar) (a l : ℚ) (states : List SarState)
    (hrun : calculate_modified_sar bars a l = some states)
    (i : ℕ) (sPrev sCur : SarState) (b : Bar)
    (hPrev : states[i]? = some sPrev) (hCur : states[i+1]? = some sCur)
    (hb : bars[i+1]? = some b) :
    (sPrev.trend = Trend.Up → b.low = candidate sPrev →
      (b.close > candidate sPrev → sCur.trend = Trend.Up ∧ sCur.sar = candidate sPrev ∧
        sCur.af = if b.high > sPrev.ep then min l (a + a) else a) ∧
      (b.close ≤ candidate sPrev → sCur.trend = Trend.Down ∧ sCur.sar = sPrev.ep ∧
        sCur.ep = b.low)) ∧
    (sPrev.trend = Trend.Down → b.high = candidate sPrev →
      (b.close < candidate sPrev → sCur.trend = Trend.Down ∧ sCur.sar = candidate sPrev ∧
        sCur.af = if b.low < sPrev.ep then min l (a + a) else a) ∧
      (b.close ≥ candidate sPrev → sCur.trend = Trend.Up ∧ sCur.sar = sPrev.ep ∧
        sCur.ep = b.high)) := by
  have hstep := run_adjacent_of_calc bars a l states hrun i sPrev sCur b hPrev hCur hb
  subst hstep
  constructor
  · intro ht heq
    constructor
    · intro h2
      exact step_touch_up a l sPrev b ht (le_of_eq heq) h2
    · intro h2
      rw [step_reverse_up a l sPrev b ht (le_of_eq heq) (not_lt.mpr h2)]
      exact ⟨rfl, rfl, rfl⟩
  · intro ht heq
    constructor
    · intro h2
      exact step_touch_down a l sPrev b ht (ge_of_eq heq) h2
    · intro h2
      rw [step_reverse_down a l sPrev b ht (ge_of_eq heq) (not_lt.mpr h2)]
      exact ⟨rfl, rfl, rfl⟩

/-- Claim C8 witness: a bar whose low lands exactly on the candidate stop
`9.02` takes the touch branch (close held: accel reset then bumped once). -/
theorem inclusive_touch_tie_break_witness :
    (⟨451/50, Trend.Up, 1/25, 11⟩ : SarState).trend = Trend.Up ∧
      (⟨451/50, Trend.Up, 1/25, 11⟩ : SarState).sar = candidate ⟨9, Trend.Up, 1/50, 10⟩ ∧
      (⟨451/50, Trend.Up, 1/25, 11⟩ : SarState).af =
        if (⟨11, 451/50, 10⟩ : Bar).high > (⟨9, Trend.Up, 1/50, 10⟩ : SarState).ep
          then min (1/5 : ℚ) (1/50 + 1/50) else 1/50 :=
  ((inclusive_touch_tie_break [⟨10, 9, 19/2⟩, ⟨11, 451/50, 10⟩] (1/50) (1/5)
      [⟨9, Trend.Up, 1/50, 10⟩, ⟨451/50, Trend.Up, 1/25, 11⟩]
      (by norm_num [calculate_modified_sar, runSar, initState, initClose1, step, stepRaw,
        epUpdate, candidate, min_def])
      0 ⟨9, Trend.Up, 1/50, 10⟩ ⟨451/50, Trend.Up, 1/25, 11⟩ ⟨11, 451/50, 10⟩
      rfl rfl rfl).1 rfl
    (by norm_num [candidate])).1 (by norm_num [candidate])

/-- Claim C7: if no bar of the run ever touches the candidate stop computed
from the previous state (`low > candidate` while in an Up regime,
`high < candidate` while in a Down regime), the trend never changes across
the whole series, and the acceleration factor never resets after index 0 —
it is non-decreasing from each index to the next. -/
theorem no_touch_idempotence (bars : List Bar) (a l : ℚ) (states : List SarState)
    (hrun : calculate_modified_sar bars a l = some states)
    (ha : 0 < a) (hal : a ≤ l)
    (hNoTouch : ∀ i sPrev b, states[i]? = some sPrev → bars[i+1]? = some b →
      (sPrev.trend = Trend.Up → candidate sPrev < b.low) ∧
      (sPrev.trend = Trend.Down → b.high < candidate sPrev)) :
    (∀ (i j : ℕ) (si sj : SarState), states[i]? = some si → states[j]? = some sj →
      si.trend = sj.trend) ∧
    (∀ (i : ℕ) (sPrev sCur : SarState), states[i]? = some sPrev →
      states[i+1]? = some sCur → sPrev.af ≤ sCur.af) := by
  have hlen := calc_length bars a l states hrun
  have hadj : ∀ i sPrev sCur, states[i]? = some sPrev → states[i+1]? = some sCur →
      sCur.trend = sPrev.trend ∧ sPrev.af ≤ sCur.af := by
    intro i sPrev sCur hP hC
    have hi1 : i + 1 < states.length := (List.getElem?_eq_some.mp hC).1
    obtain ⟨b, hbex⟩ : ∃ b, bars[i+1]? = some b := by
      have hib : i + 1 < bars.length := by omega
      exact ⟨bars[i+1], List.getElem?_eq_getElem hib⟩
    have hstep := run_adjacent_of_calc bars a l states hrun i sPrev sCur b hP hC hbex
    have hb2 := af_bounds_of_run bars a l states hrun ha hal sPrev (List.getElem?_mem hP)
    have hnt := hNoTouch i sPrev b hP hbex
    subst hstep
    exact step_no_touch a l ha sPrev b hb2.2 hnt.1 hnt.2
  have h0 : ∀ (i : ℕ) (si : SarState), states[i]? = some si →
      ∀ (s0 : SarState), states[0]? = some s0 → si.trend = s0.trend := by
    intro i
    induction i with
    | zero =>
      intro si hsi s0 hs0
      rw [hsi, Option.some.injEq] at hs0
      rw [hs0]
    | succ j ih =>
      intro si hsi s0 hs0
      have hj : j < states.length := by
        have := (List.getElem?_eq_some.mp hsi).1
        omega
      have hsj := List.getElem?_eq_getElem hj
      have h1 := hadj j (states[j]) si hsj hsi
      rw [h1.1]
      exact ih (states[j]) hsj s0 hs0
  refine ⟨?_, fun i sPrev sCur hP hC => (hadj i sPrev sCur hP hC).2⟩
  intro i j si sj hsi hsj
  have hi := (List.getElem?_eq_some.mp hsi).1
  have hz : 0 < states.length := by omega
  have h0i := List.getElem?_eq_getElem hz
  rw [h0 i si hsi (states[0]) h0i, h0 j sj hsj (states[0]) h0i]

/-- Claim C7 witness: a two-bar run in which bar 1 stays strictly above the
candidate stop keeps the Up trend from index 0 to index 1. -/
theorem no_touch_idempotence_witness :
    (⟨9, Trend.Up, 1/50, 10⟩ : SarState).trend =
      (⟨451/50, Trend.Up, 1/25, 11⟩ : SarState).trend :=
  (no_touch_idempotence [⟨10, 9, 19/2⟩, ⟨11, 10, 21/2⟩] (1/50) (1/5)
      [⟨9, Trend.Up, 1/50, 10⟩, ⟨451/50, Trend.Up, 1/25, 11⟩]
      (by norm_num [calculate_modified_sar, runSar, initState, initClose1, step, stepRaw,
        epUpdate, candidate, min_def])
      (by norm_num) (by norm_num)
      (by
        intro i sPrev b h1 h2
        have hib : i + 1 < 2 := by simpa using (List.getElem?_eq_some.mp h2).1
        have hiz : i = 0 := by omega
        subst hiz
        simp at h1 h2
        subst h1
        subst h2
        constructor
        · intro ht
          norm_num [candidate]
        · intro ht
          simp at ht)).1
    0 1 ⟨9, Trend.Up, 1/50, 10⟩ ⟨451/50, Trend.Up, 1/25, 11⟩ rfl rfl

end SarX
